import Mathlib

/-!
Shallow embedding of `aicacia/go-expiringmap` (`src/expiringmap.go`).

The repository layers an expiring map on the external concurrent map
`github.com/aicacia/go-cmap`.  Go's `time.Time` values are modelled as
natural-number instants: `t.Before(u)` is the strict comparison `t < u`.
Every Go method that reads `time.Now()` takes an explicit `now`
parameter at the position where the clock is read; methods that mutate
the receiver return the updated store alongside their result.
-/

set_option autoImplicit false

namespace ExpiringMapGo

/-- Absolute timestamps: `time.Time` modelled as a natural-number instant. -/
abbrev Time := Nat

/-- Go `t.Before(u)`: strict less-than on instants. -/
def timeBefore (t u : Time) : Bool := t < u

/-- `expiringMapVal[V]` from `src/expiringmap.go`: a stored value together
with its absolute deadline (field named `ttl` in the source). -/
structure ExpiringMapVal (V : Type) where
  val : V
  ttl : Time
  deriving Repr, DecidableEq

/-- Modelled from the spec: the backing store `cmap.CMap[K, V]`
(`github.com/aicacia/go-cmap`) is an external collaborator whose code is
not part of this repository; spec §6 describes it as an internally
synchronized mapping with one entry per key.  We model it as an
association list with at most one entry per key. -/
abbrev CMap (K : Type) (V : Type) := List (K × V)

variable {K : Type} {V : Type}

/-- Modelled from the spec: `cmap.Get(key) -> (V, bool)`. -/
def cmapGet [DecidableEq K] (m : CMap K V) (key : K) : Option V :=
  match m with
  | [] => none
  | (k, v) :: rest => if k = key then some v else cmapGet rest key

/-- Modelled from the spec: `cmap.Set(key, value) -> bool`, an
unconditional upsert returning whether a prior entry existed. -/
def cmapSet [DecidableEq K] (m : CMap K V) (key : K) (value : V) : CMap K V × Bool :=
  match m with
  | [] => ([(key, value)], false)
  | (k, v) :: rest =>
    if k = key then ((key, value) :: rest, true)
    else
      let r := cmapSet rest key value
      ((k, v) :: r.1, r.2)

/-- Modelled from the spec: `cmap.SetIfAbsent(key, value) -> bool`,
inserting only when no entry exists for the key and returning whether
the insertion happened. -/
def cmapSetIfAbsent [DecidableEq K] (m : CMap K V) (key : K) (value : V) : CMap K V × Bool :=
  match cmapGet m key with
  | some _ => (m, false)
  | none => (m ++ [(key, value)], true)

/-- Modelled from the spec: `cmap.LoadOrStore(key, value) -> (V, bool)`,
the atomic get-or-insert: returns the existing value with `true`, or
stores `value` and returns it with `false`. -/
def cmapLoadOrStore [DecidableEq K] (m : CMap K V) (key : K) (value : V) :
    V × Bool × CMap K V :=
  match cmapGet m key with
  | some v => (v, true, m)
  | none => (value, false, m ++ [(key, value)])

/-- Modelled from the spec: `cmap.Delete(key) -> bool`, the backing
store's removal primitive: unconditionally removes the entry for the key
and returns whether one was present. -/
def cmapDelete [DecidableEq K] (m : CMap K V) (key : K) : CMap K V × Bool :=
  (m.filter fun p => decide (p.1 ≠ key), (cmapGet m key).isSome)

/-- Modelled from the spec: `cmap.Remove(key) -> bool`; spec §4.1 notes
that `Delete` and `Remove` "both forward to the backing store's removal
primitive", so `Remove` is the same removal primitive. -/
def cmapRemove [DecidableEq K] (m : CMap K V) (key : K) : CMap K V × Bool :=
  (m.filter fun p => decide (p.1 ≠ key), (cmapGet m key).isSome)

/-- Modelled from the spec: `cmap.Clear()` removes all entries. -/
def cmapClear (_m : CMap K V) : CMap K V := []

/-- `ExpiringMap[K, V]`: the facade's only field is `items`, the backing
`cmap` holding wrapped values. -/
abbrev ExpiringMap (K : Type) (V : Type) := CMap K (ExpiringMapVal V)

/-- `New[K, V]()`: an empty expiring map. -/
def New (K : Type) (V : Type) : ExpiringMap K V := []

/-- `SetIfAbsent(key, value, ttl)`: forwards to the backing store's
`SetIfAbsent` with the wrapped value; no clock read, no staleness check. -/
def SetIfAbsent [DecidableEq K] (m : ExpiringMap K V) (key : K) (value : V)
    (ttl : Time) : ExpiringMap K V × Bool :=
  cmapSetIfAbsent m key ⟨value, ttl⟩

/-- `Set(key, value, ttl)`: unconditional upsert of the wrapped value. -/
def Set [DecidableEq K] (m : ExpiringMap K V) (key : K) (value : V)
    (ttl : Time) : ExpiringMap K V × Bool :=
  cmapSet m key ⟨value, ttl⟩

/-- `GetOrSet(key, value, ttl)`: `LoadOrStore` of the wrapped value, then
if the loaded entry's deadline is before `now` (the `time.Now()` read in
the call), overwrite it with the new entry and return `value`; otherwise
return the loaded entry's value. -/
def GetOrSet [DecidableEq K] (now : Time) (m : ExpiringMap K V) (key : K)
    (value : V) (ttl : Time) : V × ExpiringMap K V :=
  let newItem : ExpiringMapVal V := ⟨value, ttl⟩
  let r := cmapLoadOrStore m key newItem
  let item := r.1
  let m1 := r.2.2
  if timeBefore item.ttl now then (value, (cmapSet m1 key newItem).1)
  else (item.val, m1)

/-- `Has(key)`: present and not expired; an entry whose deadline is
before `now` is deleted and reported absent. -/
def Has [DecidableEq K] (now : Time) (m : ExpiringMap K V) (key : K) :
    Bool × ExpiringMap K V :=
  match cmapGet m key with
  | some item =>
    if timeBefore item.ttl now then (false, (cmapDelete m key).1)
    else (true, m)
  | none => (false, m)

/-- `Get(key)`: returns the stored value and `true` when live; an
expired entry is deleted and the zero value of `V` (`default`) is
returned with `false`. -/
def Get [DecidableEq K] [Inhabited V] (now : Time) (m : ExpiringMap K V)
    (key : K) : V × Bool × ExpiringMap K V :=
  match cmapGet m key with
  | some item =>
    if timeBefore item.ttl now then (default, false, (cmapDelete m key).1)
    else (item.val, true, m)
  | none => (default, false, m)

/-- `Delete(key)`: forwards to `items.Delete`. -/
def Delete [DecidableEq K] (m : ExpiringMap K V) (key : K) :
    ExpiringMap K V × Bool :=
  cmapDelete m key

/-- `Remove(key)`: forwards to `items.Remove`. -/
def Remove [DecidableEq K] (m : ExpiringMap K V) (key : K) :
    ExpiringMap K V × Bool :=
  cmapRemove m key

/-- `Range(f)`: reads `now := time.Now()` once, then traverses the
backing store; every entry whose deadline is before `now` is deleted and
the traversal continues; a live entry is passed to the callback, and a
`false` return stops the traversal.  Go callbacks may close over mutable
state (as `Len`'s counter does), so the callback is embedded with an
explicit state `S` threaded through the visits; the traversal returns
the final callback state together with the updated backing store. -/
def Range {S : Type} [DecidableEq K] (now : Time) (f : S → K → V → S × Bool) :
    S → ExpiringMap K V → S × ExpiringMap K V
  | s, [] => (s, [])
  | s, (k, item) :: rest =>
    if timeBefore item.ttl now then Range now f s rest
    else
      let r := f s k item.val
      if r.2 then
        let t := Range now f r.1 rest
        (t.1, (k, item) :: t.2)
      else (r.1, (k, item) :: rest)

/-- `Len()`: counts by running `Range` with a counter closure starting
at `0` that always continues. -/
def Len [DecidableEq K] (now : Time) (m : ExpiringMap K V) :
    Nat × ExpiringMap K V :=
  Range now (fun count _ _ => (count + 1, true)) 0 m

/-- `IsEmpty()`: `Len() == 0`. -/
def IsEmpty [DecidableEq K] (now : Time) (m : ExpiringMap K V) :
    Bool × ExpiringMap K V :=
  let r := Len now m
  (r.1 == 0, r.2)

/-- The sequence of (key, value) pairs that `Range` presents to its
callback when the callback always continues — the items `Iter` sends on
its channel (and, projected, the items of `Keys` and `Values`). -/
def RangeCollect [DecidableEq K] (now : Time) (m : ExpiringMap K V) :
    List (K × V) × ExpiringMap K V :=
  Range now (fun acc k v => (acc ++ [(k, v)], true)) [] m

/-- `Clear()`: forwards to `items.Clear`. -/
def Clear (m : ExpiringMap K V) : ExpiringMap K V := cmapClear m

/-- The entries of the backing store whose deadline is not before `now`
(the live entries, under the code's `Before` test). -/
def liveEntries (now : Time) (m : ExpiringMap K V) : ExpiringMap K V :=
  m.filter fun p => !timeBefore p.2.ttl now

/-- Pure fold with early stop over a list of visited pairs: the callback
interaction of `Range`, detached from the store. -/
def visitFold {S : Type} (f : S → K → V → S × Bool) : S → List (K × V) → S
  | s, [] => s
  | s, (k, v) :: rest =>
    let r := f s k v
    if r.2 then visitFold f r.1 rest else r.1

/-! ### Lemmas about the backing-store model -/

section CMapLemmas

variable [DecidableEq K]

theorem cmapGet_eq_none_iff (m : CMap K V) (key : K) :
    cmapGet m key = none ↔ key ∉ m.map Prod.fst := by
  induction m with
  | nil => simp [cmapGet]
  | cons p rest ih =>
    obtain ⟨k, v⟩ := p
    by_cases h : k = key
    · subst h
      simp [cmapGet]
    · have hstep : cmapGet ((k, v) :: rest) key = cmapGet rest key := by
        simp [cmapGet, h]
      rw [hstep, ih]
      simp only [List.map_cons, List.mem_cons, not_or]
      constructor
      · intro hn
        exact ⟨fun hk => h hk.symm, hn⟩
      · intro hn
        exact hn.2

theorem cmapGet_append_self (m : CMap K V) (key : K) (v : V)
    (h : cmapGet m key = none) : cmapGet (m ++ [(key, v)]) key = some v := by
  induction m with
  | nil => simp [cmapGet]
  | cons p rest ih =>
    obtain ⟨k, w⟩ := p
    by_cases hk : k = key
    · simp [cmapGet, hk] at h
    · simp [cmapGet, hk] at h ⊢
      exact ih h

theorem cmapGet_set_self (m : CMap K V) (key : K) (v : V) :
    cmapGet (cmapSet m key v).1 key = some v := by
  induction m with
  | nil => simp [cmapGet, cmapSet]
  | cons p rest ih =>
    obtain ⟨k, w⟩ := p
    by_cases hk : k = key
    · simp [cmapSet, cmapGet, hk]
    · simp [cmapSet, cmapGet, hk, ih]

theorem cmapSet_of_get_eq (m : CMap K V) (key : K) (v : V)
    (h : cmapGet m key = some v) : (cmapSet m key v).1 = m := by
  induction m with
  | nil => simp [cmapGet] at h
  | cons p rest ih =>
    obtain ⟨k, w⟩ := p
    by_cases hk : k = key
    · simp [cmapGet, hk] at h
      simp [cmapSet, hk, h]
    · simp [cmapGet, hk] at h
      simp [cmapSet, hk, ih h]

theorem cmapGet_delete_self (m : CMap K V) (key : K) :
    cmapGet (cmapDelete m key).1 key = none := by
  rw [cmapGet_eq_none_iff]
  simp [cmapDelete]

theorem cmapGet_delete_ne (m : CMap K V) (key k2 : K) (h : k2 ≠ key) :
    cmapGet (cmapDelete m key).1 k2 = cmapGet m k2 := by
  induction m with
  | nil => simp [cmapDelete]
  | cons p rest ih =>
    obtain ⟨k, w⟩ := p
    simp only [cmapDelete] at ih ⊢
    by_cases hk : k = key
    · have h1 : List.filter (fun p : K × V => decide (p.1 ≠ key)) ((k, w) :: rest) =
          List.filter (fun p : K × V => decide (p.1 ≠ key)) rest := by
        simp [hk]
      have hkk2 : ¬ k = k2 := by
        intro hh
        exact h (hh ▸ hk)
      have h2 : cmapGet ((k, w) :: rest) k2 = cmapGet rest k2 := by
        simp [cmapGet, hkk2]
      rw [h1, h2]
      exact ih
    · have h1 : List.filter (fun p : K × V => decide (p.1 ≠ key)) ((k, w) :: rest) =
          (k, w) :: List.filter (fun p : K × V => decide (p.1 ≠ key)) rest := by
        simp [hk]
      rw [h1]
      by_cases hk2 : k = k2
      · simp [cmapGet, hk2]
      · have h2 : cmapGet ((k, w) :: rest) k2 = cmapGet rest k2 := by
          simp [cmapGet, hk2]
        have h3 : cmapGet ((k, w) :: List.filter
            (fun p : K × V => decide (p.1 ≠ key)) rest) k2 =
            cmapGet (List.filter (fun p : K × V => decide (p.1 ≠ key)) rest) k2 := by
          simp [cmapGet, hk2]
        rw [h2, h3]
        exact ih

theorem cmapDelete_length_lt (m : CMap K V) (key : K)
    (h : (cmapGet m key).isSome = true) :
    (cmapDelete m key).1.length < m.length := by
  induction m with
  | nil => simp [cmapGet] at h
  | cons p rest ih =>
    obtain ⟨k, w⟩ := p
    by_cases hk : k = key
    · subst hk
      simp only [cmapDelete, List.filter_cons]
      have hdrop : (decide ((k, w).1 ≠ k)) = false := by simp
      rw [hdrop]
      have := List.length_filter_le (fun p : K × V => decide (p.1 ≠ k)) rest
      simpa using Nat.lt_succ_of_le this
    · simp only [cmapGet, hk, if_false] at h
      have := ih h
      simp only [cmapDelete, List.filter_cons] at this ⊢
      have hkeep : (decide ((k, w).1 ≠ key)) = true := by simpa using hk
      rw [hkeep]
      simpa using Nat.succ_lt_succ this

theorem cmapGet_mem (m : CMap K V) (key : K) (v : V)
    (h : cmapGet m key = some v) : (key, v) ∈ m := by
  induction m with
  | nil => simp [cmapGet] at h
  | cons p rest ih =>
    obtain ⟨k, w⟩ := p
    by_cases hk : k = key
    · subst hk
      simp [cmapGet] at h
      simp [h]
    · have hstep : cmapGet ((k, w) :: rest) key = cmapGet rest key := by
        simp [cmapGet, hk]
      rw [hstep] at h
      exact List.mem_cons_of_mem _ (ih h)

theorem cmapGet_eq_of_mem_nodup (m : CMap K V) (key : K) (v : V)
    (hnd : (m.map Prod.fst).Nodup) (hmem : (key, v) ∈ m) :
    cmapGet m key = some v := by
  induction m with
  | nil => simp at hmem
  | cons p rest ih =>
    obtain ⟨k, w⟩ := p
    simp only [List.map_cons, List.nodup_cons] at hnd
    rcases List.mem_cons.mp hmem with hhead | htail
    · injection hhead with hk hv
      subst hk
      subst hv
      simp [cmapGet]
    · by_cases hk : k = key
      · exfalso
        apply hnd.1
        rw [hk]
        exact List.mem_map.mpr ⟨(key, v), htail, rfl⟩
      · have hstep : cmapGet ((k, w) :: rest) key = cmapGet rest key := by
          simp [cmapGet, hk]
        rw [hstep]
        exact ih hnd.2 htail

end CMapLemmas

/-! ### Lemmas about `Range` and its derived operations -/

theorem visitFold_count (c : Nat) (l : List (K × V)) :
    visitFold (fun count _ _ => (count + 1, true)) c l = c + l.length := by
  induction l generalizing c with
  | nil => simp [visitFold]
  | cons p rest ih =>
    simp [visitFold, ih]
    omega

theorem visitFold_collect (acc : List (K × V)) (l : List (K × V)) :
    visitFold (fun a k v => (a ++ [(k, v)], true)) acc l = acc ++ l := by
  induction l generalizing acc with
  | nil => simp [visitFold]
  | cons p rest ih =>
    simp [visitFold, ih]

theorem liveEntries_mem_ttl (now : Time) (m : ExpiringMap K V)
    (p : K × ExpiringMapVal V) (h : p ∈ liveEntries now m) : now ≤ p.2.ttl := by
  have := (List.mem_filter.mp h).2
  simp [timeBefore] at this
  exact this

section RangeLemmas

variable [DecidableEq K]

theorem Range_fst_eq_visitFold {S : Type} (now : Time) (f : S → K → V → S × Bool)
    (s : S) (m : ExpiringMap K V) :
    (Range now f s m).1 =
      visitFold f s ((liveEntries now m).map fun p => (p.1, p.2.val)) := by
  induction m generalizing s with
  | nil => simp [Range, liveEntries, visitFold]
  | cons p rest ih =>
    obtain ⟨k, item⟩ := p
    by_cases hexp : timeBefore item.ttl now
    · simp [Range, liveEntries, List.filter_cons, hexp, ih]
    · by_cases hcont : (f s k item.val).2
      · simp [Range, liveEntries, List.filter_cons, hexp, hcont, visitFold, ih]
      · simp [Range, liveEntries, List.filter_cons, hexp, hcont, visitFold]

theorem Range_snd_eq_liveEntries {S : Type} (now : Time) (f : S → K → V → S × Bool)
    (s : S) (m : ExpiringMap K V) (h : ∀ s k v, (f s k v).2 = true) :
    (Range now f s m).2 = liveEntries now m := by
  induction m generalizing s with
  | nil => simp [Range, liveEntries]
  | cons p rest ih =>
    obtain ⟨k, item⟩ := p
    by_cases hexp : timeBefore item.ttl now
    · simp [Range, liveEntries, List.filter_cons, hexp, ih]
    · simp [Range, liveEntries, List.filter_cons, hexp, h, ih]

theorem Len_eq (now : Time) (m : ExpiringMap K V) :
    Len now m = ((liveEntries now m).length, liveEntries now m) := by
  have h1 := Range_fst_eq_visitFold now
    (fun (count : Nat) (_ : K) (_ : V) => (count + 1, true)) 0 m
  have h2 := Range_snd_eq_liveEntries now
    (fun (count : Nat) (_ : K) (_ : V) => (count + 1, true)) 0 m (by simp)
  rw [visitFold_count] at h1
  simp only [Len]
  rw [Prod.ext_iff]
  constructor
  · rw [h1]; simp
  · exact h2

theorem RangeCollect_eq (now : Time) (m : ExpiringMap K V) :
    RangeCollect now m =
      ((liveEntries now m).map (fun p => (p.1, p.2.val)), liveEntries now m) := by
  have h1 := Range_fst_eq_visitFold now
    (fun (a : List (K × V)) (k : K) (v : V) => (a ++ [(k, v)], true)) [] m
  have h2 := Range_snd_eq_liveEntries now
    (fun (a : List (K × V)) (k : K) (v : V) => (a ++ [(k, v)], true)) [] m (by simp)
  rw [visitFold_collect] at h1
  simp only [RangeCollect]
  rw [Prod.ext_iff]
  constructor
  · rw [h1]; simp
  · exact h2

end RangeLemmas

theorem liveEntries_idem (t1 t2 : Time) (m : ExpiringMap K V) (h : t1 ≤ t2) :
    liveEntries t2 (liveEntries t1 m) = liveEntries t2 m := by
  induction m with
  | nil => simp [liveEntries]
  | cons p rest ih =>
    obtain ⟨k, item⟩ := p
    simp only [liveEntries, List.filter_cons] at ih ⊢
    by_cases h2 : timeBefore item.ttl t2
    · by_cases h1 : timeBefore item.ttl t1 <;> simp [h1, h2, ih]
    · have h2' : ¬ item.ttl < t2 := by simpa [timeBefore] using h2
      have h1 : timeBefore item.ttl t1 = false := by
        simp only [timeBefore, decide_eq_false_iff_not]
        exact fun hh => h2' (lt_of_lt_of_le hh h)
      simp [h1, h2, ih]

end ExpiringMapGo

namespace ExpiringMapGo

/-! ### Claim theorems -/

section Claims

variable {K : Type} {V : Type}

theorem cmapSet_map_fst [DecidableEq K] (m : CMap K V) (k : K) (v : V) :
    (cmapSet m k v).1.map Prod.fst =
      if k ∈ m.map Prod.fst then m.map Prod.fst else m.map Prod.fst ++ [k] := by
  induction m with
  | nil => simp [cmapSet]
  | cons p rest ih =>
    obtain ⟨k1, w⟩ := p
    by_cases hk : k1 = k
    · subst hk
      simp [cmapSet]
    · have hstep : (cmapSet ((k1, w) :: rest) k v).1 =
          (k1, w) :: (cmapSet rest k v).1 := by
        simp [cmapSet, hk]
      rw [hstep]
      have hne : ¬ k = k1 := fun hh => hk hh.symm
      by_cases h2 : k ∈ rest.map Prod.fst
      · simp [ih, h2, hne]
      · simp [ih, h2, hne]

theorem cmapSet_nodup [DecidableEq K] (m : CMap K V) (k : K) (v : V)
    (hnd : (m.map Prod.fst).Nodup) : ((cmapSet m k v).1.map Prod.fst).Nodup := by
  rw [cmapSet_map_fst]
  by_cases h : k ∈ m.map Prod.fst
  · simpa [h] using hnd
  · simp [h, List.nodup_append, hnd]

theorem liveEntries_delete_of_expired [DecidableEq K]
    (now : Time) (m : ExpiringMap K V) (k : K) (item : ExpiringMapVal V)
    (hnd : (m.map Prod.fst).Nodup) (hget : cmapGet m k = some item)
    (hexp : item.ttl < now) :
    liveEntries now (cmapDelete m k).1 = liveEntries now m := by
  have hcomm : liveEntries now (cmapDelete m k).1 =
      (liveEntries now m).filter fun p => decide (p.1 ≠ k) := by
    simp only [liveEntries, cmapDelete]
    exact List.filter_comm _ _ m
  rw [hcomm]
  apply List.filter_eq_self.mpr
  intro p hp
  have hpm : p ∈ m := (List.mem_filter.mp hp).1
  have hlive := liveEntries_mem_ttl now m p hp
  simp only [decide_eq_true_eq]
  intro hpk
  have hpg : cmapGet m p.1 = some p.2 :=
    cmapGet_eq_of_mem_nodup m p.1 p.2 hnd (by simpa using hpm)
  rw [hpk, hget] at hpg
  have hpi : item = p.2 := by
    injection hpg
  rw [← hpi] at hlive
  exact absurd hexp (Nat.not_lt.mpr hlive)

/-- C1, counterexample: the claim says an entry whose deadline equals the
current time read during the call is treated as expired (evicted,
reported absent).  On the code, with the store holding key `0` at
deadline `5` and the clock reading `5`, `Has` reports the entry present
and leaves it in place, `Get` returns it, and `Len` counts it. -/
theorem C1_deadline_eq_now_counterexample :
    (Has 5 ([(0, ⟨1, 5⟩)] : ExpiringMap Nat Nat) 0).1 = true ∧
    (Has 5 ([(0, ⟨1, 5⟩)] : ExpiringMap Nat Nat) 0).2 = [(0, ⟨1, 5⟩)] ∧
    (Get 5 ([(0, ⟨1, 5⟩)] : ExpiringMap Nat Nat) 0).2.1 = true ∧
    (Len 5 ([(0, ⟨1, 5⟩)] : ExpiringMap Nat Nat)).1 = 1 :=
  ⟨rfl, rfl, rfl, rfl⟩

/-- C1 (amended): the expiry comparison used by `Has`, `Get`, and `Range`
(the `Before(now)` check) makes the deadline an inclusive upper bound on
liveness: an entry is treated as expired (evicted, reported absent) iff
its deadline is strictly before the current time read during the call,
so an entry whose deadline equals the current time is still treated as
live, and an entry is live iff its deadline is at or after the current
time. -/
theorem C1_expiry_is_strict_before [DecidableEq K] [Inhabited V]
    (now : Time) (m : ExpiringMap K V)
    (key : K) (item : ExpiringMapVal V) (h : cmapGet m key = some item) :
    ((Has now m key).1 = decide (now ≤ item.ttl)) ∧
    ((Get now m key).2.1 = decide (now ≤ item.ttl)) ∧
    ((Has now m key).2 = if now ≤ item.ttl then m else (cmapDelete m key).1) ∧
    ((m.map Prod.fst).Nodup →
      ((key, item.val) ∈ (RangeCollect now m).1 ↔ now ≤ item.ttl)) := by
  by_cases hl : now ≤ item.ttl
  · have hb : timeBefore item.ttl now = false := by
      simp only [timeBefore, decide_eq_false_iff_not]
      exact Nat.not_lt.mpr hl
    refine ⟨?_, ?_, ?_, ?_⟩
    · simp [Has, h, hb, hl]
    · simp [Get, h, hb, hl]
    · simp [Has, h, hb, hl]
    · intro hnd
      rw [RangeCollect_eq]
      simp only
      constructor
      · intro _
        exact hl
      · intro _
        refine List.mem_map.mpr ⟨(key, item), ?_, rfl⟩
        refine List.mem_filter.mpr ⟨cmapGet_mem m key item h, ?_⟩
        simp [hb]
  · have hb : timeBefore item.ttl now = true := by
      simp only [timeBefore, decide_eq_true_eq]
      exact Nat.lt_of_not_le hl
    refine ⟨?_, ?_, ?_, ?_⟩
    · simp [Has, h, hb, hl]
    · simp [Get, h, hb, hl]
    · simp [Has, h, hb, hl]
    · intro hnd
      rw [RangeCollect_eq]
      simp only
      constructor
      · intro hmem
        exfalso
        obtain ⟨p, hp, hpe⟩ := List.mem_map.mp hmem
        have hp1 : p.1 = key := congrArg Prod.fst hpe
        have hpm : p ∈ m := (List.mem_filter.mp hp).1
        have hpg : cmapGet m p.1 = some p.2 :=
          cmapGet_eq_of_mem_nodup m p.1 p.2 hnd (by simpa using hpm)
        rw [hp1, h] at hpg
        have hpi : p.2 = item := by
          injection hpg with hh
          exact hh.symm
        have := liveEntries_mem_ttl now m p hp
        rw [hpi] at this
        exact hl this
      · intro hcon
        exact absurd hcon hl

/-- Witness for C1 (amended) at a concrete input: key `0`, deadline `5`,
clock reading `5` — the entry is presented by `Range`. -/
theorem C1_expiry_is_strict_before_witness :
    ((0, 1) ∈ (RangeCollect 5 ([(0, ⟨1, 5⟩)] : ExpiringMap Nat Nat)).1 ↔ (5 : Time) ≤ 5) :=
  (C1_expiry_is_strict_before 5 [(0, ⟨1, 5⟩)] 0 ⟨1, 5⟩ (by decide)).2.2.2 (by decide)

/-- C2: `SetIfAbsent(k, v, d)` inserts and returns `true` iff no entry
for `k` is physically present in the backing store; it reads no clock
and performs no staleness check, so a second `SetIfAbsent` on the same
key returns `false` and leaves the first entry (with its deadline `d1`,
elapsed or not — no call time appears anywhere) in place. -/
theorem C2_setIfAbsent_presence_only [DecidableEq K]
    (m : ExpiringMap K V) (k : K) (v1 v2 : V) (d1 d2 : Time) :
    ((SetIfAbsent m k v1 d1).2 = true ↔ cmapGet m k = none) ∧
    ((SetIfAbsent m k v1 d1).2 = false → (SetIfAbsent m k v1 d1).1 = m) ∧
    (cmapGet m k = none →
      (SetIfAbsent ((SetIfAbsent m k v1 d1).1) k v2 d2).2 = false ∧
      (SetIfAbsent ((SetIfAbsent m k v1 d1).1) k v2 d2).1 = (SetIfAbsent m k v1 d1).1 ∧
      cmapGet ((SetIfAbsent m k v1 d1).1) k = some ⟨v1, d1⟩) := by
  refine ⟨?_, ?_, ?_⟩
  · unfold SetIfAbsent cmapSetIfAbsent
    cases hg : cmapGet m k <;> simp [hg]
  · unfold SetIfAbsent cmapSetIfAbsent
    cases hg : cmapGet m k <;> simp [hg]
  · intro hnone
    have hm1 : (SetIfAbsent m k v1 d1).1 = m ++ [(k, (⟨v1, d1⟩ : ExpiringMapVal V))] := by
      simp [SetIfAbsent, cmapSetIfAbsent, hnone]
    have hget : cmapGet ((SetIfAbsent m k v1 d1).1) k =
        some (⟨v1, d1⟩ : ExpiringMapVal V) := by
      rw [hm1]
      exact cmapGet_append_self m k _ hnone
    refine ⟨?_, ?_, hget⟩
    · show (cmapSetIfAbsent ((SetIfAbsent m k v1 d1).1) k ⟨v2, d2⟩).2 = false
      unfold cmapSetIfAbsent
      rw [hget]
    · show (cmapSetIfAbsent ((SetIfAbsent m k v1 d1).1) k ⟨v2, d2⟩).1 =
        (SetIfAbsent m k v1 d1).1
      unfold cmapSetIfAbsent
      rw [hget]

/-- Witness for C2 at a concrete input: insert key `0` with deadline `1`,
then call `SetIfAbsent` again at key `0` (with the first deadline long
elapsed): the second call returns `false`. -/
theorem C2_setIfAbsent_presence_only_witness :
    (SetIfAbsent ((SetIfAbsent (New Nat Nat) 0 7 1).1) 0 8 99).2 = false :=
  ((C2_setIfAbsent_presence_only (New Nat Nat) 0 7 8 1 99).2.2 (by decide)).1

/-- C7: `Delete` and `Remove` are the same operation: each forwards to
the backing store's removal primitive with no clock read and no expiry
check, unconditionally removes the entry for the key (live or expired),
returns whether an entry was physically present, and leaves every other
key untouched; on equal state and key they produce equal results. -/
theorem C7_delete_remove_equivalent [DecidableEq K]
    (m : ExpiringMap K V) (k : K) :
    Delete m k = Remove m k ∧
    (Delete m k).2 = (cmapGet m k).isSome ∧
    cmapGet (Delete m k).1 k = none ∧
    (∀ k2, k2 ≠ k → cmapGet (Delete m k).1 k2 = cmapGet m k2) :=
  ⟨rfl, rfl, cmapGet_delete_self m k, fun k2 h => cmapGet_delete_ne m k k2 h⟩

/-- Witness for C7 at a concrete input: deleting key `0` (whose deadline
`3` is long past) leaves key `1` untouched. -/
theorem C7_delete_remove_equivalent_witness :
    cmapGet (Delete ([(0, ⟨5, 3⟩), (1, ⟨6, 4⟩)] : ExpiringMap Nat Nat) 0).1 1 =
      cmapGet ([(0, ⟨5, 3⟩), (1, ⟨6, 4⟩)] : ExpiringMap Nat Nat) 1 :=
  (C7_delete_remove_equivalent _ 0).2.2.2 1 (by decide)

/-- C3: `GetOrSet(k, v, d)` inserts `{v, d}` and returns `v` when no
entry for `k` exists; when the stored entry's deadline has already
passed at the call's clock read it overwrites it with `{v, d}` and
returns `v`; when the stored entry is live it returns the stored value
and leaves the store unchanged.  In particular, `GetOrSet` at a deadline
that has elapsed by the time of a second `GetOrSet` makes the second
call return its own value and store it. -/
theorem C3_getOrSet_overwrites_stale [DecidableEq K]
    (now : Time) (m : ExpiringMap K V) (k : K) (v : V) (d : Time) :
    (cmapGet m k = none →
      GetOrSet now m k v d = (v, m ++ [(k, (⟨v, d⟩ : ExpiringMapVal V))])) ∧
    (∀ item : ExpiringMapVal V, cmapGet m k = some item →
      (item.ttl < now →
        (GetOrSet now m k v d).1 = v ∧
        cmapGet (GetOrSet now m k v d).2 k = some ⟨v, d⟩) ∧
      (now ≤ item.ttl → GetOrSet now m k v d = (item.val, m))) ∧
    (∀ (now2 : Time) (v2 : V) (d2 : Time), cmapGet m k = none → d < now2 →
      (GetOrSet now2 (GetOrSet now m k v d).2 k v2 d2).1 = v2 ∧
      cmapGet (GetOrSet now2 (GetOrSet now m k v d).2 k v2 d2).2 k = some ⟨v2, d2⟩) := by
  have habsent : ∀ t : Time, cmapGet m k = none →
      GetOrSet t m k v d = (v, m ++ [(k, (⟨v, d⟩ : ExpiringMapVal V))]) := by
    intro t hnone
    have hm1get : cmapGet (m ++ [(k, (⟨v, d⟩ : ExpiringMapVal V))]) k =
        some ⟨v, d⟩ := cmapGet_append_self m k _ hnone
    by_cases hb : timeBefore d t
    · simp [GetOrSet, cmapLoadOrStore, hnone, hb, cmapSet_of_get_eq _ _ _ hm1get]
    · simp [GetOrSet, cmapLoadOrStore, hnone, hb]
  have hsome : ∀ (t : Time) (mm : ExpiringMap K V) (item : ExpiringMapVal V)
      (vv : V) (dd : Time), cmapGet mm k = some item → item.ttl < t →
      (GetOrSet t mm k vv dd).1 = vv ∧
      cmapGet (GetOrSet t mm k vv dd).2 k = some ⟨vv, dd⟩ := by
    intro t mm item vv dd hg hstale
    have hb : timeBefore item.ttl t = true := by
      simp only [timeBefore, decide_eq_true_eq]
      exact hstale
    constructor
    · simp [GetOrSet, cmapLoadOrStore, hg, hb]
    · simp [GetOrSet, cmapLoadOrStore, hg, hb, cmapGet_set_self]
  refine ⟨habsent now, ?_, ?_⟩
  · intro item hg
    refine ⟨hsome now m item v d hg, ?_⟩
    intro hlive
    have hb : timeBefore item.ttl now = false := by
      simp only [timeBefore, decide_eq_false_iff_not]
      exact Nat.not_lt.mpr hlive
    simp [GetOrSet, cmapLoadOrStore, hg, hb]
  · intro now2 v2 d2 hnone hd
    have hstore := habsent now hnone
    rw [hstore]
    have hm1get : cmapGet (m ++ [(k, (⟨v, d⟩ : ExpiringMapVal V))]) k =
        some ⟨v, d⟩ := cmapGet_append_self m k _ hnone
    exact hsome now2 _ ⟨v, d⟩ v2 d2 hm1get hd

/-- Witness for C3 at a concrete input: `GetOrSet` at time `1` with
deadline `5` on an empty store, then `GetOrSet` at time `10` (deadline
`5` has elapsed) with value `8`: the second call returns `8`. -/
theorem C3_getOrSet_overwrites_stale_witness :
    (GetOrSet 10 (GetOrSet 1 (New Nat Nat) 0 7 5).2 0 8 20).1 = 8 :=
  ((C3_getOrSet_overwrites_stale 1 (New Nat Nat) 0 7 5).2.2 10 8 20
    (by decide) (by decide)).1

/-- C4: after `Set(k, v, d)`, `Get(k)` returns `(v, true)` at every call
time at or before `d` (before the deadline has passed), and at every
call time after `d` it returns the zero value and `false`, removes the
entry from the backing store (the key is gone and the physical store
shrinks), and a subsequent `Len` at that time is unchanged by the
removal (the evicted entry was not counted). -/
theorem C4_set_get_roundtrip [DecidableEq K] [Inhabited V]
    (m0 : ExpiringMap K V) (k : K) (v : V) (d : Time) :
    (∀ now : Time, now ≤ d →
      Get now (Set m0 k v d).1 k = (v, true, (Set m0 k v d).1)) ∧
    (∀ now : Time, d < now →
      (Get now (Set m0 k v d).1 k).1 = default ∧
      (Get now (Set m0 k v d).1 k).2.1 = false ∧
      cmapGet (Get now (Set m0 k v d).1 k).2.2 k = none ∧
      (Get now (Set m0 k v d).1 k).2.2.length < (Set m0 k v d).1.length) ∧
    (∀ now : Time, d < now → (m0.map Prod.fst).Nodup →
      (Len now ((Get now (Set m0 k v d).1 k).2.2)).1 =
        (Len now (Set m0 k v d).1).1) := by
  have hget : cmapGet (Set m0 k v d).1 k = some ⟨v, d⟩ := cmapGet_set_self m0 k _
  refine ⟨?_, ?_, ?_⟩
  · intro now hle
    have hb : timeBefore d now = false := by
      simp only [timeBefore, decide_eq_false_iff_not]
      exact Nat.not_lt.mpr hle
    simp [Get, hget, hb]
  · intro now hlt
    have hb : timeBefore d now = true := by
      simp only [timeBefore, decide_eq_true_eq]
      exact hlt
    refine ⟨?_, ?_, ?_, ?_⟩
    · simp [Get, hget, hb]
    · simp [Get, hget, hb]
    · have : (Get now (Set m0 k v d).1 k).2.2 = (cmapDelete (Set m0 k v d).1 k).1 := by
        simp [Get, hget, hb]
      rw [this]
      exact cmapGet_delete_self _ k
    · have : (Get now (Set m0 k v d).1 k).2.2 = (cmapDelete (Set m0 k v d).1 k).1 := by
        simp [Get, hget, hb]
      rw [this]
      exact cmapDelete_length_lt _ k (by simp [hget])
  · intro now hlt hnd0
    have hb : timeBefore d now = true := by
      simp only [timeBefore, decide_eq_true_eq]
      exact hlt
    have hdel : (Get now (Set m0 k v d).1 k).2.2 = (cmapDelete (Set m0 k v d).1 k).1 := by
      simp [Get, hget, hb]
    have hnd : ((Set m0 k v d).1.map Prod.fst).Nodup := cmapSet_nodup m0 k _ hnd0
    rw [hdel, Len_eq, Len_eq]
    simp only
    rw [liveEntries_delete_of_expired now _ k ⟨v, d⟩ hnd hget hlt]

/-- Witness for C4 at a concrete input: `Set` key `0` with deadline `5`;
`Get` at time `3` returns the value, `Get` at time `9` misses. -/
theorem C4_set_get_roundtrip_witness :
    Get 3 (Set (New Nat Nat) 0 7 5).1 0 = (7, true, (Set (New Nat Nat) 0 7 5).1) ∧
    (Get 9 (Set (New Nat Nat) 0 7 5).1 0).2.1 = false ∧
    (Len 9 ((Get 9 (Set (New Nat Nat) 0 7 5).1 0).2.2)).1 =
      (Len 9 (Set (New Nat Nat) 0 7 5).1).1 :=
  ⟨(C4_set_get_roundtrip (New Nat Nat) 0 7 5).1 3 (by decide),
   ((C4_set_get_roundtrip (New Nat Nat) 0 7 5).2.1 9 (by decide)).2.1,
   (C4_set_get_roundtrip (New Nat Nat) 0 7 5).2.2 9 (by decide) (by decide)⟩

/-- C5, counterexample: the claim demands that every entry presented by
`Range` (or counted by `Len`) have a deadline strictly after the
observation timestamp, but at clock reading `7` the code presents, and
counts, the entry whose deadline is exactly `7` — a deadline not
strictly after the observation time (`Before` is strict, so the entry
does not test as expired). -/
theorem C5_deadline_not_strictly_after_counterexample :
    (RangeCollect 7 ([(2, ⟨4, 7⟩)] : ExpiringMap Nat Nat)).1 = [(2, 4)] ∧
    (Len 7 ([(2, ⟨4, 7⟩)] : ExpiringMap Nat Nat)).1 = 1 ∧
    ¬ (7 : Time) < 7 :=
  ⟨rfl, rfl, by decide⟩

/-- C5 (amended): the whole interaction of any `Range` callback is over
the live entries only — where, under the code's strict `Before` test, an
entry is live iff its deadline is at or after the call's clock reading
(a deadline equal to the observation timestamp is still presented):
`Range` never presents, and `Len` never counts, an entry whose deadline
is strictly before the time of the check; the callback's final state
equals a pure fold over the live entries; every pair presented comes
from a stored entry whose deadline is at or after the call time; and
when the traversal runs to completion (as in `Len` and the channel
producers) every expired entry has been evicted from the resulting
store while the traversal continued. -/
theorem C5_observed_entries_live [DecidableEq K] (now : Time) (m : ExpiringMap K V) :
    (∀ (S : Type) (f : S → K → V → S × Bool) (s : S),
      (Range now f s m).1 =
        visitFold f s ((liveEntries now m).map fun p => (p.1, p.2.val))) ∧
    (∀ p ∈ (RangeCollect now m).1,
      ∃ item : ExpiringMapVal V, (p.1, item) ∈ m ∧ p.2 = item.val ∧ now ≤ item.ttl) ∧
    (Len now m).1 = (liveEntries now m).length ∧
    (Len now m).2 = liveEntries now m ∧
    (RangeCollect now m).2 = liveEntries now m ∧
    (∀ q ∈ liveEntries now m, now ≤ q.2.ttl) := by
  refine ⟨?_, ?_, ?_, ?_, ?_, ?_⟩
  · intro S f s
    exact Range_fst_eq_visitFold now f s m
  · intro p hp
    rw [RangeCollect_eq] at hp
    obtain ⟨q, hq, hqe⟩ := List.mem_map.mp hp
    refine ⟨q.2, ?_, ?_, ?_⟩
    · have hq1 : q.1 = p.1 := congrArg Prod.fst hqe
      have hqm : q ∈ m := (List.mem_filter.mp hq).1
      rw [← hq1]
      simpa using hqm
    · have : q.2.val = p.2 := congrArg Prod.snd hqe
      exact this.symm
    · exact liveEntries_mem_ttl now m q hq
  · rw [Len_eq]
  · rw [Len_eq]
  · rw [RangeCollect_eq]
  · intro q hq
    exact liveEntries_mem_ttl now m q hq

/-- Witness for C5 at a concrete input: the pair `(1, 2)` presented by
`Range` at time `10` comes from a stored entry live at time `10`. -/
theorem C5_observed_entries_live_witness :
    ∃ item : ExpiringMapVal Nat,
      ((1 : Nat), item) ∈ ([(0, ⟨9, 3⟩), (1, ⟨2, 20⟩)] : ExpiringMap Nat Nat) ∧
      (2 : Nat) = item.val ∧ (10 : Time) ≤ item.ttl :=
  (C5_observed_entries_live 10 [(0, ⟨9, 3⟩), (1, ⟨2, 20⟩)]).2.1 (1, 2) (by decide)

/-- C6: on the same store contents and without intervening writes, the
live count reported by `Len` is non-increasing in the call time; a
repeated `Len` (running on the store the first call left behind) reports
the same count as `Len` directly on the old contents; and a key `Has`
reported absent stays absent at any later time. -/
theorem C6_len_monotone [DecidableEq K] (t1 t2 : Time) (m : ExpiringMap K V)
    (k : K) (h : t1 ≤ t2) :
    (Len t2 m).1 ≤ (Len t1 m).1 ∧
    (Len t2 ((Len t1 m).2)).1 = (Len t2 m).1 ∧
    ((Has t1 m k).1 = false → (Has t2 m k).1 = false) := by
  refine ⟨?_, ?_, ?_⟩
  · rw [Len_eq, Len_eq]
    simp only
    calc (liveEntries t2 m).length
        = (liveEntries t2 (liveEntries t1 m)).length := by
          rw [liveEntries_idem t1 t2 m h]
      _ ≤ (liveEntries t1 m).length := List.length_filter_le _ _
  · rw [Len_eq, Len_eq, Len_eq]
    simp only
    rw [liveEntries_idem t1 t2 m h]
  · intro hfalse
    cases hg : cmapGet m k with
    | none => simp [Has, hg]
    | some item =>
      by_cases hb1 : timeBefore item.ttl t1
      · have hb2 : timeBefore item.ttl t2 = true := by
          simp only [timeBefore, decide_eq_true_eq] at hb1 ⊢
          exact lt_of_lt_of_le hb1 h
        simp [Has, hg, hb2]
      · exfalso
        simp [Has, hg, hb1] at hfalse

/-- Witness for C6 at a concrete input: between times `3` and `9` the
count over the same contents does not grow, and a repeated `Len` agrees. -/
theorem C6_len_monotone_witness :
    (Len 9 ([(0, ⟨1, 5⟩), (1, ⟨2, 20⟩)] : ExpiringMap Nat Nat)).1 ≤
      (Len 3 ([(0, ⟨1, 5⟩), (1, ⟨2, 20⟩)] : ExpiringMap Nat Nat)).1 :=
  (C6_len_monotone 3 9 _ 0 (by decide)).1

/-- C10: `Range` (hence `Len`, `IsEmpty` and the channel producers built
on it) judges every entry against the single clock reading taken at the
start of the call: an entry whose deadline is at or after that reading
is presented as live — even though at any later instant `t2` past its
deadline the fresh clock reads inside `Has` and `Get` report the very
same entry absent. -/
theorem C10_range_single_clock_read [DecidableEq K] [Inhabited V]
    (now t2 : Time) (m : ExpiringMap K V) (k : K) (item : ExpiringMapVal V)
    (hnd : (m.map Prod.fst).Nodup) (hmem : (k, item) ∈ m)
    (hlive : now ≤ item.ttl) :
    (k, item.val) ∈ (RangeCollect now m).1 ∧
    (item.ttl < t2 → (Has t2 m k).1 = false ∧ (Get t2 m k).2.1 = false) := by
  have hget : cmapGet m k = some item := cmapGet_eq_of_mem_nodup m k item hnd hmem
  constructor
  · rw [RangeCollect_eq]
    refine List.mem_map.mpr ⟨(k, item), ?_, rfl⟩
    refine List.mem_filter.mpr ⟨hmem, ?_⟩
    have hb : timeBefore item.ttl now = false := by
      simp only [timeBefore, decide_eq_false_iff_not]
      exact Nat.not_lt.mpr hlive
    simp [hb]
  · intro hpast
    have hb2 : timeBefore item.ttl t2 = true := by
      simp only [timeBefore, decide_eq_true_eq]
      exact hpast
    constructor
    · simp [Has, hget, hb2]
    · simp [Get, hget, hb2]

/-- Witness for C10 at a concrete input: the entry at key `0` with
deadline `5` is presented by the `Range` that read the clock at `3`,
while `Has` reading the clock at `9` reports it absent. -/
theorem C10_range_single_clock_read_witness :
    ((0 : Nat), (1 : Nat)) ∈ (RangeCollect 3 ([(0, ⟨1, 5⟩)] : ExpiringMap Nat Nat)).1 ∧
    (Has 9 ([(0, ⟨1, 5⟩)] : ExpiringMap Nat Nat) 0).1 = false :=
  ⟨(C10_range_single_clock_read 3 9 [(0, ⟨1, 5⟩)] 0 ⟨1, 5⟩
      (by decide) (by decide) (by decide)).1,
   ((C10_range_single_clock_read 3 9 [(0, ⟨1, 5⟩)] 0 ⟨1, 5⟩
      (by decide) (by decide) (by decide)).2 (by decide)).1⟩

/-- C8: `Clear` empties the backing store unconditionally with no expiry
check: afterwards, for every key and every call time — regardless of any
previously stored deadline — `Get` returns the zero value and `false`,
`Has` returns `false`, and `Len` returns `0`. -/
theorem C8_clear_removes_everything [DecidableEq K] [Inhabited V]
    (now : Time) (m : ExpiringMap K V) (k : K) :
    Get now (Clear m) k = (default, false, ([] : ExpiringMap K V)) ∧
    Has now (Clear m) k = (false, ([] : ExpiringMap K V)) ∧
    Len now (Clear m) = (0, ([] : ExpiringMap K V)) :=
  ⟨rfl, rfl, rfl⟩

end Claims

end ExpiringMapGo
